import Mathlib

/-!
Shallow embedding of the core of the `jukebox` repository:
the track queue engine (`src/jukebox/jukebox.py`) and the reconnection
supervisor (`src/jukebox/bot.py`), together with proofs checking the
claims of the specification about them.

Conventions of the embedding:
* `Track` mirrors the dataclass in `src/jukebox/track.py` (value equality,
  as Python dataclasses compare by value).
* `Jukebox` mirrors the mutable state of the `Jukebox` class; each mutating
  method becomes a function from the old state to the new state plus its
  return value.  The optional `on_track_change` callback is modelled by
  returning the list of values the callback is invoked with (empty list:
  no invocation).
* Python `int` indices are `Int` (they may be negative); machine lists are
  Lean lists.
-/

/-- Mirrors the `Track` dataclass of `src/jukebox/track.py`. -/
structure Track where
  url : String
  title : String
  duration : Int
  requester : String
  stream_url : String
deriving DecidableEq, Repr

/-- The two `IndexError` raises of the queue engine. -/
inductive JukeboxError where
  | indexOutOfRange
deriving DecidableEq, Repr

/-- State of the `Jukebox` class of `src/jukebox/jukebox.py`:
`_queue`, `_current`, `_history`. -/
structure Jukebox where
  queue : List Track
  current : Option Track
  history : List Track
deriving DecidableEq, Repr

/-- `Jukebox.__init__`: empty queue, no current track, empty history. -/
def Jukebox.init : Jukebox :=
  ⟨[], none, []⟩

/-- `Jukebox.is_empty`: queue empty and nothing playing. -/
def Jukebox.is_empty (j : Jukebox) : Bool :=
  j.current.isNone && j.queue.length == 0

/-- `Jukebox.add`: append to the queue, return the 0-based position
(`len(self._queue) - 1` after the append). -/
def Jukebox.add (j : Jukebox) (track : Track) : Jukebox × Nat :=
  let q := j.queue ++ [track]
  ({ j with queue := q }, q.length - 1)

/-- `Jukebox.add_next`: insert at the front of the queue. -/
def Jukebox.add_next (j : Jukebox) (track : Track) : Jukebox :=
  { j with queue := track :: j.queue }

/-- `Jukebox.remove`: raise `IndexError` when `index < 0` or
`index >= len(self._queue)`; otherwise `self._queue.pop(index)`.
The state component of the result is the state after the call
(unchanged when the error is raised, since Python raises before
mutating). -/
def Jukebox.remove (j : Jukebox) (index : Int) : Except JukeboxError Track × Jukebox :=
  if h : index < 0 ∨ (j.queue.length : Int) ≤ index then
    (.error .indexOutOfRange, j)
  else
    (.ok (j.queue.get ⟨index.toNat, by omega⟩),
     { j with queue := j.queue.eraseIdx index.toNat })

/-- `Jukebox.clear`: empty the queue, return the prior length. -/
def Jukebox.clear (j : Jukebox) : Jukebox × Nat :=
  ({ j with queue := [] }, j.queue.length)

/-- Models `Jukebox.shuffle` (`random.shuffle(self._queue)`): the
permutation chosen by the random number generator is passed explicitly
as the new queue contents. -/
def Jukebox.shuffleWith (j : Jukebox) (q : List Track) : Jukebox :=
  { j with queue := q }

/-- `Jukebox.next`: move `_current` (when present) to `_history`, pop the
queue head into `_current` (or set it to `None` on an empty queue), invoke
the change callback with the new `_current`, and return the new
`_current`.  Result: (new state, return value, callback invocations). -/
def Jukebox.next (j : Jukebox) : Jukebox × Option Track × List (Option Track) :=
  let j1 := match j.current with
    | some c => { j with history := j.history ++ [c] }
    | none => j
  let j2 := match j1.queue with
    | t :: rest => { j1 with current := some t, queue := rest }
    | [] => { j1 with current := none }
  (j2, j2.current, [j2.current])

/-- `Jukebox.skip`: alias for `next()`. -/
def Jukebox.skip (j : Jukebox) : Jukebox × Option Track × List (Option Track) :=
  j.next

/-- `Jukebox.stop`: move `_current` (when present) to `_history` and clear
it; invoke the change callback with `None`; queue untouched. -/
def Jukebox.stop (j : Jukebox) : Jukebox × List (Option Track) :=
  let j1 := match j.current with
    | some c => { j with history := j.history ++ [c], current := none }
    | none => j
  (j1, [none])

/-- `Jukebox.start`: return `_current` when already playing, otherwise
behave as `next()`. -/
def Jukebox.start (j : Jukebox) : Jukebox × Option Track × List (Option Track) :=
  match j.current with
  | some c => (j, some c, [])
  | none => j.next

/-- `Jukebox.move`: validate both indices against the current queue length
(raising `IndexError` for either), then `pop(from_index)` followed by
`insert(to_index, track)`. -/
def Jukebox.move (j : Jukebox) (fromIndex toIndex : Int) : Except JukeboxError Unit × Jukebox :=
  if hf : fromIndex < 0 ∨ (j.queue.length : Int) ≤ fromIndex then
    (.error .indexOutOfRange, j)
  else if ht : toIndex < 0 ∨ (j.queue.length : Int) ≤ toIndex then
    (.error .indexOutOfRange, j)
  else
    let track := j.queue.get ⟨fromIndex.toNat, by omega⟩
    (.ok (),
     { j with queue := (j.queue.eraseIdx fromIndex.toNat).insertIdx toIndex.toNat track })

/-- `Jukebox.get_queue_duration`: sum of durations over the queue. -/
def Jukebox.get_queue_duration (j : Jukebox) : Int :=
  (j.queue.map Track.duration).sum

/-- `Jukebox.clear_history`: empty the history. -/
def Jukebox.clear_history (j : Jukebox) : Jukebox :=
  { j with history := [] }

/-- The state after applying `next` (discarding return value and
callback log). -/
def Jukebox.nextState (j : Jukebox) : Jukebox :=
  (j.next).1

/-- Iterate `next` a given number of times. -/
def Jukebox.advanceN (j : Jukebox) : Nat → Jukebox
  | 0 => j
  | n + 1 => (j.nextState).advanceN n

/-!
Reconnection supervisor (`src/jukebox/bot.py`, `JukeboxCog._attempt_reconnect`
and the per-guild state of `GuildState`).
-/

/-- `MAX_RECONNECT_ATTEMPTS` from `src/jukebox/bot.py`. -/
def MAX_RECONNECT_ATTEMPTS : Nat := 3

/-- Per-guild bot state (`GuildState` in `src/jukebox/bot.py`).
`voiceConnected` models whether `voice_client` holds a live connection. -/
structure GuildState where
  jukebox : Jukebox
  voiceConnected : Bool
  isPlaying : Bool
  targetChannelId : Option Nat
  intentionalDisconnect : Bool
  reconnectAttempts : Nat
deriving DecidableEq, Repr

/-- `GuildState.__init__`. -/
def GuildState.init : GuildState :=
  ⟨Jukebox.init, false, false, none, false, 0⟩

/-- Outcome of one reconnection attempt cycle, as observed from the
environment inside the `try` block of `_attempt_reconnect`:
the guild lookup fails, the channel lookup fails (or the channel is not a
voice channel), `channel.connect()` raises (`ConnectError`), or the
connect succeeds. -/
inductive AttemptOutcome where
  | guildMissing
  | channelMissing
  | connectError
  | success
deriving DecidableEq, Repr

/-- `JukeboxCog._attempt_reconnect`, with the responses of the environment to
the successive attempt cycles passed as the list `outcomes` (the recursive
retry on `ConnectError` consumes the next entry).  Result:
(new guild state, returned boolean, tracks submitted for playback via
`_play_track`).  On success the code sets `voice_client`, resets
`reconnect_attempts` to 0 and, when `jukebox.current` is present, calls
`_play_track`, which submits the track and sets `is_playing = True`. -/
def attempt_reconnect (st : GuildState) (outcomes : List AttemptOutcome) :
    GuildState × Bool × List Track :=
  if st.intentionalDisconnect then (st, false, [])
  else if st.targetChannelId = none then (st, false, [])
  else if MAX_RECONNECT_ATTEMPTS ≤ st.reconnectAttempts then
    ({ st with isPlaying := false }, false, [])
  else
    let st1 := { st with reconnectAttempts := st.reconnectAttempts + 1 }
    match outcomes with
    | [] => (st1, false, [])
    | .guildMissing :: _ => (st1, false, [])
    | .channelMissing :: _ => (st1, false, [])
    | .success :: _ =>
      let st2 := { st1 with reconnectAttempts := 0, voiceConnected := true }
      match st2.jukebox.current with
      | some tr => ({ st2 with isPlaying := true }, true, [tr])
      | none => (st2, true, [])
    | .connectError :: rest => attempt_reconnect st1 rest
termination_by outcomes.length

/-!
Heap model for the aliasing claim about the `queue` / `history` accessor
properties: Python lists are mutable cells; the accessors return
`self._queue.copy()` / `self._history.copy()`, i.e. freshly allocated
cells with the same contents.
-/

/-- A heap of Python list objects; a reference is an index. -/
abbrev Heap : Type := List (List Track)

/-- Dereference a list object. -/
def Heap.read (h : Heap) (r : Nat) : List Track :=
  (h[r]?).getD []

/-- Mutate a list object in place. -/
def Heap.write (h : Heap) (r : Nat) (l : List Track) : Heap :=
  List.set h r l

/-- Allocate a fresh list object, returning the new heap and the
reference. -/
def Heap.alloc (h : Heap) (l : List Track) : Heap × Nat :=
  (h ++ [l], h.length)

/-- The references a `Jukebox` instance holds to its two internal list
objects. -/
structure JukeboxRefs where
  queueRef : Nat
  historyRef : Nat
deriving DecidableEq, Repr

/-- The `queue` property: `return self._queue.copy()` — a fresh list
object with the same contents. -/
def JukeboxRefs.queueAccessor (j : JukeboxRefs) (h : Heap) : Heap × Nat :=
  h.alloc (h.read j.queueRef)

/-- The `history` property: `return self._history.copy()`. -/
def JukeboxRefs.historyAccessor (j : JukeboxRefs) (h : Heap) : Heap × Nat :=
  h.alloc (h.read j.historyRef)

/-!
Reachable states of the queue engine, indexed by the list of tracks fed to
`add` / `add_next` along the way, for the `current` ∉ `queue` claim.
-/

/-- `Reach ts j`: the state `j` is reachable from `Jukebox.init` by some
sequence of the queue-engine operations `add`, `add_next`, `remove`,
`clear`, `shuffle`, `move`, `next` (advance) and `stop`, where `ts` lists
the tracks passed to `add` / `add_next` in order.  The `shuffle` step may
pick any permutation of the queue. -/
inductive Reach : List Track → Jukebox → Prop where
  | init : Reach [] Jukebox.init
  | add (t : Track) {ts : List Track} {j : Jukebox} :
      Reach ts j → Reach (ts ++ [t]) (j.add t).1
  | add_next (t : Track) {ts : List Track} {j : Jukebox} :
      Reach ts j → Reach (ts ++ [t]) (j.add_next t)
  | remove (i : Int) {ts : List Track} {j : Jukebox} :
      Reach ts j → Reach ts (j.remove i).2
  | clear {ts : List Track} {j : Jukebox} :
      Reach ts j → Reach ts (j.clear).1
  | shuffle (q : List Track) {ts : List Track} {j : Jukebox} :
      Reach ts j → q.Perm j.queue → Reach ts (j.shuffleWith q)
  | move (f t : Int) {ts : List Track} {j : Jukebox} :
      Reach ts j → Reach ts (j.move f t).2
  | next {ts : List Track} {j : Jukebox} :
      Reach ts j → Reach ts (j.next).1
  | stop {ts : List Track} {j : Jukebox} :
      Reach ts j → Reach ts (j.stop).1

/-!
Concrete fixtures used by witnesses and counterexamples.
-/

/-- A concrete track. -/
def tA : Track :=
  ⟨"urlA", "A", 100, "userA", "streamA"⟩

/-- A second concrete track. -/
def tB : Track :=
  ⟨"urlB", "B", 200, "userB", "streamB"⟩

/-- A third concrete track. -/
def tC : Track :=
  ⟨"urlC", "C", 300, "userC", "streamC"⟩

/-- The track called `S n` in the `move` examples of the specification. -/
def sTrack (n : Nat) : Track :=
  ⟨"url" ++ toString n, "S" ++ toString n, 60, "user", ""⟩

/-- A queue-engine state holding the five tracks `S0 .. S4`. -/
def jukeboxS5 : Jukebox :=
  ⟨[sTrack 0, sTrack 1, sTrack 2, sTrack 3, sTrack 4], none, []⟩

/-- A concrete two-track state for witnesses. -/
def jW : Jukebox :=
  ((Jukebox.init.add tA).1.add tB).1

/-- A concrete three-track state for witnesses. -/
def jW3 : Jukebox :=
  (((Jukebox.init.add tA).1.add tB).1.add tC).1

/-- A concrete state where `tA` is playing. -/
def jP : Jukebox :=
  ((Jukebox.init.add tA).1.next).1

/-- A concrete guild state ready for reconnection: playing, not
intentional, target channel set, no attempts yet, `tA` current. -/
def gsW : GuildState :=
  ⟨jP, false, true, some 67890, false, 0⟩

/-!
Theorems.
-/

/-- Field-level description of one `next` step (shared helper). -/
theorem next_step_spec (j : Jukebox) :
    (j.next).1.history = j.history ++ j.current.toList ∧
    (j.next).1.current = j.queue.head? ∧
    (j.next).1.queue = j.queue.tail ∧
    (j.next).2.2 = [(j.next).1.current] ∧
    (j.next).2.1 = (j.next).1.current := by
  cases hc : j.current <;> cases hq : j.queue <;>
    simp [Jukebox.next, hc, hq]

/-- C1: `Jukebox.next` appends the present `current` to `history`, pops
the queue head into `current` (or clears it when the queue is empty),
invokes the change callback exactly once with the new `current`, and
returns the new `current`. -/
theorem c1_advance_spec (j : Jukebox) :
    (j.next).1.history = j.history ++ j.current.toList ∧
    (j.next).1.current = j.queue.head? ∧
    (j.next).1.queue = j.queue.tail ∧
    (j.next).2.2 = [(j.next).1.current] ∧
    (j.next).2.1 = (j.next).1.current :=
  next_step_spec j

/-- C5: when `intentional_disconnect` is set, `_attempt_reconnect`
returns `False` immediately and leaves the guild state unchanged. -/
theorem c5_intentional_noop (st : GuildState) (outcomes : List AttemptOutcome)
    (hi : st.intentionalDisconnect = true) :
    attempt_reconnect st outcomes = (st, false, []) := by
  rw [attempt_reconnect]
  simp [hi]

/-- Witness for `c5_intentional_noop` at a concrete state. -/
theorem c5_intentional_noop_witness :
    attempt_reconnect { gsW with intentionalDisconnect := true } [.connectError]
      = ({ gsW with intentionalDisconnect := true }, false, []) :=
  c5_intentional_noop { gsW with intentionalDisconnect := true } [.connectError] rfl

/-- C10: `Jukebox.start` with a current track present returns it and
changes nothing (no state change, no callback); with no current track it
behaves exactly as `next()`. -/
theorem c10_start_spec (j : Jukebox) :
    (∀ c, j.current = some c → j.start = (j, some c, [])) ∧
    (j.current = none → j.start = j.next) := by
  constructor
  · intro c hc
    simp [Jukebox.start, hc]
  · intro hc
    simp [Jukebox.start, hc]

/-- Witness for `c10_start_spec`: a playing state and an idle state. -/
theorem c10_start_spec_witness :
    jP.start = (jP, some tA, []) ∧ Jukebox.init.start = Jukebox.init.next :=
  ⟨(c10_start_spec jP).1 tA (by decide), (c10_start_spec Jukebox.init).2 rfl⟩

/-- One `next` step on a non-empty queue, written as a record. -/
theorem nextState_eq_of_queue_cons (j : Jukebox) (t : Track) (rest : List Track)
    (hq : j.queue = t :: rest) :
    j.nextState = ⟨rest, some t, j.history ++ j.current.toList⟩ := by
  cases hc : j.current <;> simp [Jukebox.nextState, Jukebox.next, hq, hc]

/-- Driving `next` as many times as the queue is long empties the queue,
leaves the last element of the queue as `current`, and appends the old
`current` followed by all queue elements but the last to the history. -/
theorem advanceN_length_spec (q : List Track) :
    ∀ j : Jukebox, j.queue = q → q ≠ [] →
      (j.advanceN q.length).queue = [] ∧
      (j.advanceN q.length).current = q.getLast? ∧
      (j.advanceN q.length).history = j.history ++ j.current.toList ++ q.dropLast := by
  induction q with
  | nil =>
    intro j _ hne
    exact absurd rfl hne
  | cons t rest ih =>
    intro j hq _
    have hstep := nextState_eq_of_queue_cons j t rest hq
    have hlen : (t :: rest).length = rest.length + 1 := rfl
    have hadv : j.advanceN (t :: rest).length = (j.nextState).advanceN rest.length := by
      rw [hlen]
      rfl
    cases rest with
    | nil =>
      rw [hadv, hstep]
      simp [Jukebox.advanceN]
    | cons r rs =>
      obtain ⟨h1, h2, h3⟩ := ih (j.nextState) (by rw [hstep]) (List.cons_ne_nil r rs)
      rw [hadv]
      refine ⟨h1, ?_, ?_⟩
      · rw [h2]
        simp
      · rw [h3, hstep]
        simp

/-- C2 (amended): starting idle with an empty history and a queue of `n`
tracks, after exactly `n` `next()` calls the history holds the first
`n - 1` tracks in original order (the `n`-th is still `current`); the
`(n+1)`-th `next()` call returns `none`, after which the history holds
exactly the `n` tracks in original order. -/
theorem c2_advance_n_times (j : Jukebox) (hc : j.current = none) (hh : j.history = []) :
    (j.advanceN j.queue.length).history = j.queue.dropLast ∧
    ((j.advanceN j.queue.length).next).2.1 = none ∧
    ((j.advanceN j.queue.length).next).1.history = j.queue := by
  by_cases hq : j.queue = []
  · constructor
    · simp [hq, Jukebox.advanceN]
      exact hh
    · rw [hq]
      simp [Jukebox.advanceN, Jukebox.next, hc, hq, hh]
  · obtain ⟨h1, h2, h3⟩ := advanceN_length_spec j.queue j rfl hq
    have hlast : j.queue.getLast? = some (j.queue.getLast hq) :=
      List.getLast?_eq_getLast j.queue hq
    have hhist : (j.advanceN j.queue.length).history = j.queue.dropLast := by
      rw [h3, hc, hh]
      simp
    refine ⟨hhist, ?_, ?_⟩
    · simp [Jukebox.next, h1, h2, hlast]
    · rw [show ((j.advanceN j.queue.length).next).1.history
          = (j.advanceN j.queue.length).history
            ++ (j.advanceN j.queue.length).current.toList from ?_]
      · rw [hhist, h2, hlast]
        simpa using List.dropLast_append_getLast hq
      · exact (next_step_spec _).1

/-- Witness for `c2_advance_n_times` on a concrete three-track queue. -/
theorem c2_advance_n_times_witness :
    (jW3.advanceN jW3.queue.length).history = jW3.queue.dropLast ∧
    ((jW3.advanceN jW3.queue.length).next).2.1 = none ∧
    ((jW3.advanceN jW3.queue.length).next).1.history = jW3.queue :=
  c2_advance_n_times jW3 (by decide) (by decide)

/-- C6: `remove(index)` fails with `IndexOutOfRange` exactly when the
index lies outside `[0, len)`, leaving the state (in particular the
queue) unchanged; for an in-range index it removes and returns the track
at that position. -/
theorem c6_remove_spec (j : Jukebox) (i : Int) :
    ((i < 0 ∨ (j.queue.length : Int) ≤ i) →
      j.remove i = (.error .indexOutOfRange, j)) ∧
    (∀ (h0 : 0 ≤ i) (hl : i < (j.queue.length : Int)),
      ∃ tr, j.queue.get? i.toNat = some tr ∧
        j.remove i = (.ok tr, { j with queue := j.queue.eraseIdx i.toNat })) := by
  constructor
  · intro h
    rw [Jukebox.remove]
    simp [h]
  · intro h0 hl
    have hnat : i.toNat < j.queue.length := by omega
    refine ⟨j.queue.get ⟨i.toNat, hnat⟩, ?_, ?_⟩
    · rw [List.get?_eq_get hnat]
    · rw [Jukebox.remove]
      have hcond : ¬ (i < 0 ∨ (j.queue.length : Int) ≤ i) := by omega
      simp [hcond]

/-- Witness for `c6_remove_spec`: out-of-range index 5 and in-range
index 0 on a two-track queue. -/
theorem c6_remove_spec_witness :
    jW.remove 5 = (.error .indexOutOfRange, jW) ∧
    jW.remove 0 = (.ok tA, { jW with queue := [tB] }) := by
  refine ⟨(c6_remove_spec jW 5).1 (by decide), ?_⟩
  obtain ⟨tr, h1, h2⟩ := (c6_remove_spec jW 0).2 (by decide) (by decide)
  have htr : tr = tA := by
    have h3 : some tr = some tA := by
      rw [← h1]
      decide
    exact Option.some.inj h3
  rw [htr] at h2
  refine h2.trans ?_
  congr 1

/-- Looking up an insertion at the inserted position (shared helper). -/
theorem insertIdx_lookup_self {α : Type} (l : List α) (x : α) (n : Nat)
    (hn : n ≤ l.length) :
    (l.insertIdx n x)[n]? = some x := by
  have hlen : (l.insertIdx n x).length = l.length + 1 := List.length_insertIdx n l hn
  rw [List.getElem?_eq_getElem (by omega)]
  rw [List.getElem_insertIdx_self l x n hn]

/-- C7: `move(from, to)` fails with `IndexOutOfRange` when either index
is outside `[0, len)` (state unchanged); for valid indices it repositions
exactly one element — the element that was at `from` is at `to`
afterwards — preserving the relative order of the others (deleting the
moved element from the result gives the original queue with the `from`
position deleted); concretely, on the 5-track queue `[S0..S4]`,
`move(0,3)` yields `queue[0] == S1` and `queue[3] == S0`, and `move(4,1)`
yields `queue[1] == S4` and `queue[4] == S3`. -/
theorem c7_move_spec (j : Jukebox) (f t : Int) :
    ((f < 0 ∨ (j.queue.length : Int) ≤ f ∨ t < 0 ∨ (j.queue.length : Int) ≤ t) →
      j.move f t = (.error .indexOutOfRange, j)) ∧
    (∀ (hf0 : 0 ≤ f) (hfl : f < (j.queue.length : Int))
        (ht0 : 0 ≤ t) (htl : t < (j.queue.length : Int)),
      (j.move f t).1 = .ok () ∧
      (j.move f t).2.queue.eraseIdx t.toNat = j.queue.eraseIdx f.toNat ∧
      ((j.move f t).2.queue)[t.toNat]? = (j.queue)[f.toNat]?) ∧
    ((jukeboxS5.move 0 3).2.queue)[0]? = some (sTrack 1) ∧
    ((jukeboxS5.move 0 3).2.queue)[3]? = some (sTrack 0) ∧
    ((jukeboxS5.move 4 1).2.queue)[1]? = some (sTrack 4) ∧
    ((jukeboxS5.move 4 1).2.queue)[4]? = some (sTrack 3) := by
  refine ⟨?_, ?_, by decide, by decide, by decide, by decide⟩
  · intro h
    rw [Jukebox.move]
    rcases h with h | h | h | h
    · rw [dif_pos (Or.inl h)]
    · rw [dif_pos (Or.inr h)]
    · have hf : ¬ (f < 0 ∨ (j.queue.length : Int) ≤ f) ∨ True := Or.inr trivial
      by_cases hf2 : f < 0 ∨ (j.queue.length : Int) ≤ f
      · rw [dif_pos hf2]
      · rw [dif_neg hf2, dif_pos (Or.inl h)]
    · by_cases hf2 : f < 0 ∨ (j.queue.length : Int) ≤ f
      · rw [dif_pos hf2]
      · rw [dif_neg hf2, dif_pos (Or.inr h)]
  · intro hf0 hfl ht0 htl
    have hfn : f.toNat < j.queue.length := by omega
    have hc1 : ¬ (f < 0 ∨ (j.queue.length : Int) ≤ f) := by omega
    have hc2 : ¬ (t < 0 ∨ (j.queue.length : Int) ≤ t) := by omega
    have hlen1 : (j.queue.eraseIdx f.toNat).length + 1 = j.queue.length :=
      List.length_eraseIdx_add_one hfn
    have htle : t.toNat ≤ (j.queue.eraseIdx f.toNat).length := by omega
    rw [Jukebox.move, dif_neg hc1, dif_neg hc2]
    refine ⟨rfl, List.eraseIdx_insertIdx t.toNat (j.queue.eraseIdx f.toNat), ?_⟩
    rw [insertIdx_lookup_self _ _ _ htle, List.getElem?_eq_getElem hfn]
    simp [List.get_eq_getElem]

/-- Witness for `c7_move_spec`: invalid `move(7, 0)` and valid
`move(0, 1)` on a two-track queue. -/
theorem c7_move_spec_witness :
    jW.move 7 0 = (.error .indexOutOfRange, jW) ∧
    (jW.move 0 1).1 = .ok () ∧
    ((jW.move 0 1).2.queue)[1]? = (jW.queue)[0]? := by
  refine ⟨(c7_move_spec jW 7 0).1 (by decide), ?_, ?_⟩
  · exact ((c7_move_spec jW 0 1).2.1 (by decide) (by decide) (by decide) (by decide)).1
  · exact ((c7_move_spec jW 0 1).2.1 (by decide) (by decide) (by decide) (by decide)).2.2

/-- C3: from a playing, non-intentional state with a target channel and
no attempts used, three consecutive `ConnectError` results drive
`_attempt_reconnect` into exhaustion: it returns `False` having submitted
nothing, with `is_playing` cleared and `reconnect_attempts` equal to
`MAX_RECONNECT_ATTEMPTS = 3`; any further invocation performs no
automatic action (state unchanged, `False` again, nothing submitted). -/
theorem c3_exhaustion (st : GuildState)
    (hp : st.isPlaying = true) (hi : st.intentionalDisconnect = false)
    (hc : st.targetChannelId ≠ none) (ha : st.reconnectAttempts = 0) :
    attempt_reconnect st [.connectError, .connectError, .connectError]
      = ({ st with reconnectAttempts := 3, isPlaying := false }, false, []) ∧
    ∀ outs : List AttemptOutcome,
      attempt_reconnect { st with reconnectAttempts := 3, isPlaying := false } outs
        = ({ st with reconnectAttempts := 3, isPlaying := false }, false, []) := by
  constructor
  · rw [attempt_reconnect]
    simp only [hi, hc, ha, MAX_RECONNECT_ATTEMPTS]
    rw [attempt_reconnect]
    simp only [hi, hc, MAX_RECONNECT_ATTEMPTS]
    rw [attempt_reconnect]
    simp only [hi, hc, MAX_RECONNECT_ATTEMPTS]
    rw [attempt_reconnect]
    simp only [hi, hc, MAX_RECONNECT_ATTEMPTS]
    simp
  · intro outs
    rw [attempt_reconnect]
    simp only [hi, hc, MAX_RECONNECT_ATTEMPTS]
    simp

/-- Witness for `c3_exhaustion` at the concrete guild state `gsW`. -/
theorem c3_exhaustion_witness :
    attempt_reconnect gsW [.connectError, .connectError, .connectError]
      = ({ gsW with reconnectAttempts := 3, isPlaying := false }, false, []) ∧
    attempt_reconnect { gsW with reconnectAttempts := 3, isPlaying := false } []
      = ({ gsW with reconnectAttempts := 3, isPlaying := false }, false, []) :=
  ⟨(c3_exhaustion gsW rfl rfl (by decide) rfl).1,
   (c3_exhaustion gsW rfl rfl (by decide) rfl).2 []⟩

/-- C4: a successful connect after two failed attempts resets
`reconnect_attempts` to 0, returns `True`, and — when a current track is
present — submits exactly that one track (hence its stream URL exactly
once) for playback via `_play_track`. -/
theorem c4_success_after_two_failures (st : GuildState)
    (hi : st.intentionalDisconnect = false) (hc : st.targetChannelId ≠ none)
    (ha : st.reconnectAttempts = 0) :
    (attempt_reconnect st [.connectError, .connectError, .success]).1.reconnectAttempts = 0 ∧
    (attempt_reconnect st [.connectError, .connectError, .success]).2.1 = true ∧
    (∀ tr, st.jukebox.current = some tr →
      (attempt_reconnect st [.connectError, .connectError, .success]).2.2 = [tr] ∧
      ((attempt_reconnect st [.connectError, .connectError, .success]).2.2.map
        Track.stream_url) = [tr.stream_url]) := by
  have hrun : attempt_reconnect st [.connectError, .connectError, .success]
      = attempt_reconnect { st with reconnectAttempts := 2 } [.success] := by
    rw [attempt_reconnect]
    simp only [hi, hc, ha, MAX_RECONNECT_ATTEMPTS]
    rw [attempt_reconnect]
    simp only [hi, hc, MAX_RECONNECT_ATTEMPTS]
    simp
  rw [hrun, attempt_reconnect]
  simp only [hi, hc, MAX_RECONNECT_ATTEMPTS]
  cases hcur : st.jukebox.current with
  | none =>
    simp [hcur]
  | some tr0 =>
    simp [hcur]

/-- Witness for `c4_success_after_two_failures` at the concrete guild
state `gsW`, whose current track is `tA`. -/
theorem c4_success_after_two_failures_witness :
    (attempt_reconnect gsW [.connectError, .connectError, .success]).1.reconnectAttempts = 0 ∧
    (attempt_reconnect gsW [.connectError, .connectError, .success]).2.2 = [tA] :=
  ⟨(c4_success_after_two_failures gsW rfl (by decide) rfl).1,
   ((c4_success_after_two_failures gsW rfl (by decide) rfl).2.2 tA (by decide)).1⟩

/-- Mutating a freshly allocated cell leaves every pre-existing cell
unchanged (shared helper). -/
theorem heap_write_fresh_preserves (h : Heap) (c l : List Track) (r : Nat)
    (hr : r < h.length) :
    Heap.read (Heap.write (h ++ [c]) h.length l) r = Heap.read h r := by
  unfold Heap.read Heap.write
  rw [List.getElem?_set_ne (by omega)]
  rw [List.getElem?_append_left hr]

/-- C9: the `queue` and `history` properties return copies — mutating
the list object an accessor returns leaves the internal queue of the engine
and history cells (hence the outcome of every subsequent operation, all
of which read only those cells) unchanged. -/
theorem c9_accessors_return_copies (h : Heap) (j : JukeboxRefs)
    (hq : j.queueRef < h.length) (hh : j.historyRef < h.length) :
    ∀ l : List Track,
      (Heap.read (Heap.write (j.queueAccessor h).1 (j.queueAccessor h).2 l) j.queueRef
        = Heap.read h j.queueRef ∧
       Heap.read (Heap.write (j.queueAccessor h).1 (j.queueAccessor h).2 l) j.historyRef
        = Heap.read h j.historyRef) ∧
      (Heap.read (Heap.write (j.historyAccessor h).1 (j.historyAccessor h).2 l) j.queueRef
        = Heap.read h j.queueRef ∧
       Heap.read (Heap.write (j.historyAccessor h).1 (j.historyAccessor h).2 l) j.historyRef
        = Heap.read h j.historyRef) := by
  intro l
  exact ⟨⟨heap_write_fresh_preserves h _ l _ hq, heap_write_fresh_preserves h _ l _ hh⟩,
         ⟨heap_write_fresh_preserves h _ l _ hq, heap_write_fresh_preserves h _ l _ hh⟩⟩

/-- Witness for `c9_accessors_return_copies` on a two-cell heap. -/
theorem c9_accessors_return_copies_witness :
    Heap.read
      (Heap.write ((JukeboxRefs.mk 0 1).queueAccessor [[tA], [tB]]).1
        ((JukeboxRefs.mk 0 1).queueAccessor [[tA], [tB]]).2 [tC, tC]) 0
      = Heap.read [[tA], [tB]] 0 :=
  ((c9_accessors_return_copies [[tA], [tB]] (JukeboxRefs.mk 0 1)
    (by decide) (by decide) [tC, tC]).1).1

/-- Inserting at a position within the list is a permutation of consing
(shared helper). -/
theorem insertIdx_perm_cons {α : Type} (x : α) :
    ∀ (n : Nat) (l : List α), n ≤ l.length → (l.insertIdx n x).Perm (x :: l) := by
  intro n l
  induction l generalizing n with
  | nil =>
    intro hn
    have hz : n = 0 := Nat.le_zero.mp (by simpa using hn)
    subst hz
    simp
  | cons a tl ih =>
    intro hn
    cases n with
    | zero => simp
    | succ m =>
      rw [List.insertIdx_succ_cons]
      have h1 : (tl.insertIdx m x).Perm (x :: tl) := ih m (by simpa using hn)
      exact (h1.cons a).trans (List.Perm.swap x a tl)

/-- A list is a permutation of its element at `i` consed onto the list
with position `i` deleted (shared helper). -/
theorem perm_getElem_cons_eraseIdx {α : Type} :
    ∀ (l : List α) (i : Nat) (h : i < l.length), l.Perm (l[i] :: l.eraseIdx i) := by
  intro l
  induction l with
  | nil =>
    intro i h
    simp at h
  | cons a tl ih =>
    intro i h
    cases i with
    | zero => simp
    | succ m =>
      have hm : m < tl.length := by simpa using h
      have h1 := ih m hm
      simp only [List.getElem_cons_succ, List.eraseIdx_cons_succ]
      exact (h1.cons a).trans (List.Perm.swap tl[m] a (tl.eraseIdx m))

/-- The tracks held in `current` and the queue, as one list. -/
theorem reach_invariant {ts : List Track} {j : Jukebox} (h : Reach ts j) :
    ts.Nodup →
      (∀ x ∈ j.current.toList ++ j.queue, x ∈ ts) ∧
      (j.current.toList ++ j.queue).Nodup := by
  induction h with
  | init =>
    intro _
    simp [Jukebox.init]
  | @add t ts j hr ih =>
    intro hts
    rw [List.nodup_append] at hts
    obtain ⟨hts0, _, hdisj⟩ := hts
    obtain ⟨hsub, hnd⟩ := ih hts0
    have htnew : t ∉ j.current.toList ++ j.queue := by
      intro hmem
      exact hdisj (hsub t hmem) (by simp)
    constructor
    · intro x hx
      simp only [Jukebox.add] at hx
      rw [← List.append_assoc] at hx
      rcases List.mem_append.mp hx with hx1 | hx1
      · exact List.mem_append.mpr (Or.inl (hsub x hx1))
      · simp at hx1
        simp [hx1]
    · simp only [Jukebox.add]
      rw [← List.append_assoc, List.nodup_append]
      refine ⟨hnd, List.nodup_singleton t, ?_⟩
      intro x hx1 hx2
      simp at hx2
      subst hx2
      exact htnew hx1
  | @add_next t ts j hr ih =>
    intro hts
    rw [List.nodup_append] at hts
    obtain ⟨hts0, _, hdisj⟩ := hts
    obtain ⟨hsub, hnd⟩ := ih hts0
    have htnew : t ∉ j.current.toList ++ j.queue := by
      intro hmem
      exact hdisj (hsub t hmem) (by simp)
    have hperm : (j.current.toList ++ t :: j.queue).Perm
        (t :: (j.current.toList ++ j.queue)) := List.perm_middle
    constructor
    · intro x hx
      simp only [Jukebox.add_next] at hx
      rcases List.mem_cons.mp (hperm.mem_iff.mp hx) with hx1 | hx1
      · simp [hx1]
      · exact List.mem_append.mpr (Or.inl (hsub x hx1))
    · simp only [Jukebox.add_next]
      refine hperm.symm.nodup ?_
      exact List.nodup_cons.mpr ⟨htnew, hnd⟩
  | @remove i ts j hr ih =>
    intro hts
    obtain ⟨hsub, hnd⟩ := ih hts
    rw [Jukebox.remove]
    by_cases hcond : i < 0 ∨ (j.queue.length : Int) ≤ i
    · rw [dif_pos hcond]
      exact ⟨hsub, hnd⟩
    · rw [dif_neg hcond]
      dsimp only
      have hsl : List.Sublist (j.current.toList ++ j.queue.eraseIdx i.toNat)
          (j.current.toList ++ j.queue) :=
        (List.eraseIdx_sublist j.queue i.toNat).append_left j.current.toList
      exact ⟨fun x hx => hsub x (hsl.subset hx), hnd.sublist hsl⟩
  | @clear ts j hr ih =>
    intro hts
    obtain ⟨hsub, hnd⟩ := ih hts
    have hsl : List.Sublist (j.current.toList ++ ([] : List Track))
        (j.current.toList ++ j.queue) :=
      (List.nil_sublist j.queue).append_left j.current.toList
    exact ⟨fun x hx => hsub x (hsl.subset hx), hnd.sublist hsl⟩
  | @shuffle q ts j hr hq ih =>
    intro hts
    obtain ⟨hsub, hnd⟩ := ih hts
    have hperm : (j.current.toList ++ q).Perm (j.current.toList ++ j.queue) :=
      List.Perm.append_left j.current.toList hq
    exact ⟨fun x hx => hsub x (hperm.mem_iff.mp hx), hperm.symm.nodup hnd⟩
  | @move f t ts j hr ih =>
    intro hts
    obtain ⟨hsub, hnd⟩ := ih hts
    rw [Jukebox.move]
    by_cases hc1 : f < 0 ∨ (j.queue.length : Int) ≤ f
    · rw [dif_pos hc1]
      exact ⟨hsub, hnd⟩
    · rw [dif_neg hc1]
      by_cases hc2 : t < 0 ∨ (j.queue.length : Int) ≤ t
      · rw [dif_pos hc2]
        exact ⟨hsub, hnd⟩
      · rw [dif_neg hc2]
        dsimp only
        have hfn : f.toNat < j.queue.length := by omega
        have hlen1 : (j.queue.eraseIdx f.toNat).length + 1 = j.queue.length :=
          List.length_eraseIdx_add_one hfn
        have htle : t.toNat ≤ (j.queue.eraseIdx f.toNat).length := by omega
        have hp1 : ((j.queue.eraseIdx f.toNat).insertIdx t.toNat
            (j.queue.get ⟨f.toNat, by omega⟩)).Perm
            (j.queue.get ⟨f.toNat, by omega⟩ :: j.queue.eraseIdx f.toNat) :=
          insertIdx_perm_cons _ t.toNat _ htle
        have hp2 : j.queue.Perm
            (j.queue.get ⟨f.toNat, by omega⟩ :: j.queue.eraseIdx f.toNat) := by
          have := perm_getElem_cons_eraseIdx j.queue f.toNat hfn
          simpa [List.get_eq_getElem] using this
        have hperm : (j.current.toList ++ (j.queue.eraseIdx f.toNat).insertIdx t.toNat
            (j.queue.get ⟨f.toNat, by omega⟩)).Perm
            (j.current.toList ++ j.queue) :=
          List.Perm.append_left j.current.toList (hp1.trans hp2.symm)
        exact ⟨fun x hx => hsub x (hperm.mem_iff.mp hx), hperm.symm.nodup hnd⟩
  | @next ts j hr ih =>
    intro hts
    obtain ⟨hsub, hnd⟩ := ih hts
    cases hq : j.queue with
    | nil =>
      cases hc : j.current <;>
        simp [Jukebox.next, hq, hc]
    | cons t rest =>
      have heq : (j.next).1.current.toList ++ (j.next).1.queue = j.queue := by
        cases hc : j.current <;> simp [Jukebox.next, hq, hc]
      rw [heq]
      have hsl : List.Sublist j.queue (j.current.toList ++ j.queue) := by
        cases j.current <;> simp
      exact ⟨fun x hx => hsub x (hsl.subset hx), hnd.sublist hsl⟩
  | @stop ts j hr ih =>
    intro hts
    obtain ⟨hsub, hnd⟩ := ih hts
    have heq : (j.stop).1.current.toList ++ (j.stop).1.queue = j.queue := by
      cases hc : j.current <;> simp [Jukebox.stop, hc]
    rw [heq]
    have hsl : List.Sublist j.queue (j.current.toList ++ j.queue) := by
      cases j.current <;> simp
    exact ⟨fun x hx => hsub x (hsl.subset hx), hnd.sublist hsl⟩

/-- C8 (amended): in every state reachable by a sequence of `add`,
`add_next`, `remove`, `clear`, `shuffle`, `move`, `next` and `stop` in
which the tracks fed to `add` / `add_next` are pairwise distinct, the
current track is never present in the queue. -/
theorem c8_current_not_in_queue {ts : List Track} {j : Jukebox}
    (h : Reach ts j) (hts : ts.Nodup) {t : Track} (hc : j.current = some t) :
    t ∉ j.queue := by
  obtain ⟨_, hnd⟩ := reach_invariant h hts
  rw [hc] at hnd
  simp only [Option.toList_some, List.singleton_append, List.nodup_cons] at hnd
  exact hnd.1

/-- Witness for `c8_current_not_in_queue`: after `add tA; add tB; next`
the current track `tA` is not in the queue `[tB]`. -/
theorem c8_current_not_in_queue_witness :
    tA ∉ (jW.next).1.queue :=
  c8_current_not_in_queue
    (Reach.next (Reach.add tB (Reach.add tA Reach.init)))
    (by decide) (by decide)

/-- Counterexample to C8 as stated: the trace `add tA; next; add tA`
reaches a state whose current track `tA` is also in the queue — nothing
stops a track equal to the current one from being added. -/
theorem c8_counterexample :
    Reach [tA, tA] ((jP.add tA).1) ∧
    ((jP.add tA).1).current = some tA ∧
    tA ∈ ((jP.add tA).1).queue := by
  refine ⟨?_, by decide, by decide⟩
  exact Reach.add tA (Reach.next (Reach.add tA Reach.init))

/-- Counterexample to C2 as stated: with one queued track, a single
`next()` call leaves the history empty (length 0, not 1) — the track has
moved to `current`, not to `history`. -/
theorem c2_counterexample :
    (Jukebox.init.add tA).1.current = none ∧
    (Jukebox.init.add tA).1.queue.length = 1 ∧
    ¬ (((Jukebox.init.add tA).1.advanceN 1).history.length = 1) := by
  refine ⟨rfl, rfl, ?_⟩
  decide
